import Mathlib

/-!
Shallow embedding of `src/bloom_filter/bloomfilter.py` (class `BloomFilter`).

Conventions of the embedding:
* Python `int` is modelled as `ℤ` (Python integers are arbitrary precision).
* Python `float` arithmetic in the capacity-planning formulas is modelled over `ℝ`
  (`math.log` is the natural logarithm, `math.ceil` is `Int.ceil`, the built-in
  `round` is `round : ℝ → ℤ`; rounding conventions differ from Python's only at
  exact ties, which never arise at the inputs used below).
* The `bitarray` is modelled as a `List Bool`; `bitarray(n)` followed by
  `setall(0)` is a list of `n` `false`s; `b[i] = 1` is `List.set i true`,
  reading `b[i]` is `List.getD i false`.
* Python `%` on integers agrees with `Int.emod` (Lean's `%` on `ℤ`) whenever the
  modulus is positive, which is the case for every constructed filter.
* The external hash primitive `mmh3.hash64` is an injected parameter
  `H : String → ℤ × ℤ` in every operation; a concrete stand-in is provided
  (`mmh3_hash64`) for evaluating the operations at concrete inputs.
* Items are modelled as `String`; Python's `str(item)` applied to a `str` is the
  identity, so `add` (which hashes `str(item)`) and `contain` (which hashes
  `item` unconverted) receive the same hash input for string items.  The
  add/contain coercion asymmetry for non-string items is modelled separately on
  a small Python-value type `PyObj`.
-/

/-- A Python value, as far as the hash-input coercion in `add` (line 80,
`str(item)`) versus `contain` (line 130, bare `item`) is concerned: either a
`str` or some non-`str` value (an `int` suffices as representative). -/
inductive PyObj where
  | PyStr (s : String)
  | PyInt (n : ℤ)
deriving DecidableEq

/-- Python's `str(·)` coercion: the identity on a `str`, the decimal
representation on an `int`. -/
def py_str : PyObj → String
  | .PyStr s => s
  | .PyInt n => toString n

/-- The value `BloomFilter.add` (line 80) hands to `get_hash`: `str(item)`,
always a Python `str`. -/
def add_hash_input (item : PyObj) : PyObj :=
  PyObj.PyStr (py_str item)

/-- The value `BloomFilter.contain` (line 130) hands to `get_hash`: `item`
itself, uncoerced. -/
def contain_hash_input (item : PyObj) : PyObj :=
  item

/-- Modelled from the spec: the external hash primitive `mmh3.hash64` (not part
of this repository) — "a 128-bit/64-bit-pair non-cryptographic hash function"
returning "two independent 64-bit integers `(h1, h2)`".  Any deterministic
string hash with that signature realises the spec's interface; this concrete
stand-in folds the characters with two polynomial hashes reduced mod `2^64` and
reinterpreted as signed 64-bit values.  The theorems about the filter's
operations are parametric in the hash function; this definition is used only to
evaluate them at concrete inputs. -/
def mmh3_hash64 (s : String) : ℤ × ℤ :=
  let u1 := s.data.foldl (fun (a : ℕ) c => (a * 131 + c.toNat) % 2 ^ 64) 7
  let u2 := s.data.foldl (fun (a : ℕ) c => (a * 137 + c.toNat) % 2 ^ 64) 11
  ((if u1 < 2 ^ 63 then (u1 : ℤ) else (u1 : ℤ) - 2 ^ 64),
   (if u2 < 2 ^ 63 then (u2 : ℤ) else (u2 : ℤ) - 2 ^ 64))

/-- The state of a `BloomFilter` object: the attributes set in `__init__`
(lines 54–68).  `delete_threshold` is omitted: it is set to `False` once and
never read anywhere in the class. -/
structure BloomFilter where
  items_count : ℤ
  probability : ℝ
  case_sensitive : Bool
  counter : ℤ
  filter_size : ℤ
  hash_count : ℤ
  bloom_bitarray : List Bool

/-- Python's `str.lower()`: lower-case the string character by character
(`String.toLower` in Lean, written as a structural map over the character
list). -/
def py_lower (s : String) : String :=
  ⟨s.data.map Char.toLower⟩

/-- `BloomFilter.get_hash` (lines 146–174): lower-cases the item when
`case_sensitive` is TRUE (note the inverted polarity in the source:
`if case_sensitive: item = item.lower()`), then applies `mmh3.hash64`
(the parameter `H`). -/
def get_hash (H : String → ℤ × ℤ) (item : String) (case_sensitive : Bool) : ℤ × ℤ :=
  if case_sensitive then H (py_lower item) else H item

/-- `position = current_hash % self.filter_size` (lines 88 and 137). -/
def hash_position (current_hash filter_size : ℤ) : ℤ :=
  current_hash % filter_size

/-- Lines 67–68: `bitarray(self.filter_size)` followed by `setall(0)`. -/
def init_bits (filter_size : ℤ) : List Bool :=
  List.replicate filter_size.toNat false

/-- The loop of `BloomFilter.add` (lines 86–90): `n` iterations remaining,
`current_hash` the running hash; each iteration sets the bit at
`current_hash % filter_size` and then adds `hash_val2`. -/
def add_loop (filter_size hash_val2 : ℤ) : ℕ → ℤ → List Bool → List Bool
  | 0, _, bits => bits
  | n + 1, current_hash, bits =>
      add_loop filter_size hash_val2 n (current_hash + hash_val2)
        (bits.set (hash_position current_hash filter_size).toNat true)

/-- `BloomFilter.add` (lines 70–95): hash `str(item)` (the identity on the
`String` item domain), run the setting loop for `hash_count` iterations
starting from `hash_val1`, then increment `counter`. -/
def BloomFilter.add (H : String → ℤ × ℤ) (bf : BloomFilter) (item : String) : BloomFilter :=
  let hv := get_hash H item bf.case_sensitive
  { bf with
    bloom_bitarray :=
      add_loop bf.filter_size hv.2 bf.hash_count.toNat hv.1 bf.bloom_bitarray
    counter := bf.counter + 1 }

/-- `BloomFilter.bulk_add` (lines 97–113): `for item in items: self.add(item)`,
in sequence order. -/
def BloomFilter.bulk_add (H : String → ℤ × ℤ) (bf : BloomFilter)
    (items : List String) : BloomFilter :=
  items.foldl (fun b it => b.add H it) bf

/-- The loop of `BloomFilter.contain` (lines 135–141): returns `false` at the
first unset bit (`if not self.bloom_bitarray[position]: return False`),
`true` once all `n` iterations pass. -/
def contain_loop (filter_size hash_val2 : ℤ) (bits : List Bool) : ℕ → ℤ → Bool
  | 0, _ => true
  | n + 1, current_hash =>
      if bits.getD (hash_position current_hash filter_size).toNat false then
        contain_loop filter_size hash_val2 bits n (current_hash + hash_val2)
      else
        false

/-- `BloomFilter.contain` (lines 115–144): hash `item` (uncoerced), check the
`hash_count` positions, short-circuiting on the first unset bit.  The Python
method writes to no attribute, so it is embedded as a pure function of the
state. -/
def BloomFilter.contain (H : String → ℤ × ℤ) (bf : BloomFilter) (item : String) : Bool :=
  let hv := get_hash H item bf.case_sensitive
  contain_loop bf.filter_size hv.2 bf.bloom_bitarray bf.hash_count.toNat hv.1

/-- `BloomFilter.get_filter_size` (lines 176–199):
`ceil((items * log(prob)) / log(1 / pow(2, log(2))))`. -/
noncomputable def get_filter_size (items : ℤ) (prob : ℝ) : ℤ :=
  ⌈((items : ℝ) * Real.log prob) / Real.log (1 / (2 : ℝ) ^ Real.log 2)⌉

/-- `BloomFilter.get_hash_count` (lines 201–224):
`round((size / items) * log(2))`.  (Python's `round` is round-half-to-even,
Mathlib's `round` is round-half-up; they agree away from exact ties, and no
exact tie occurs at any input considered below since `log 2` is irrational.) -/
noncomputable def get_hash_count (items size : ℤ) : ℤ :=
  round (((size : ℝ) / (items : ℝ)) * Real.log 2)

/-- Spec-side definition (§4.4): "equivalent to calling Insert once per item,
in sequence order" — written as plain recursion on the item sequence, to be
compared with the source-side `BloomFilter.bulk_add`. -/
def spec_sequential_insert (H : String → ℤ × ℤ) (bf : BloomFilter) :
    List String → BloomFilter
  | [] => bf
  | x :: xs => spec_sequential_insert H (bf.add H x) xs

/-! ### Helper lemmas about bit-array reads and writes -/

theorem getD_set_true_self : ∀ (l : List Bool) (j : ℕ), j < l.length →
    (l.set j true).getD j false = true := by
  intro l
  induction l with
  | nil => intro j h; simp at h
  | cons a t ih =>
    intro j h
    cases j with
    | zero => rfl
    | succ m => simpa using ih m (by simpa using h)

theorem getD_set_true_mono : ∀ (l : List Bool) (j i : ℕ),
    l.getD i false = true → (l.set j true).getD i false = true := by
  intro l
  induction l with
  | nil => intro j i h; simp at h
  | cons a t ih =>
    intro j i h
    cases j with
    | zero =>
      cases i with
      | zero => rfl
      | succ k => simpa using h
    | succ m =>
      cases i with
      | zero => simpa using h
      | succ k => simpa using ih m k (by simpa using h)

theorem set_true_of_getD_true : ∀ (l : List Bool) (j : ℕ),
    l.getD j false = true → l.set j true = l := by
  intro l
  induction l with
  | nil => intro j h; simp at h
  | cons a t ih =>
    intro j h
    cases j with
    | zero =>
      have ha : a = true := by simpa using h
      simp [ha]
    | succ m =>
      have := ih m (by simpa using h)
      simp [this]

theorem getD_replicate_false : ∀ (n j : ℕ),
    (List.replicate n false).getD j false = false := by
  intro n
  induction n with
  | zero => intro j; rfl
  | succ m ih =>
    intro j
    cases j with
    | zero => rfl
    | succ k => exact ih k

/-- Index-shift arithmetic used when peeling one iteration off the loops. -/
theorem hash_shift (ch h2 : ℤ) (i : ℕ) :
    ch + h2 + (i : ℤ) * h2 = ch + ((i + 1 : ℕ) : ℤ) * h2 := by
  push_cast
  ring

/-! ### Lemmas about the `add` loop -/

theorem add_loop_length (size h2 : ℤ) : ∀ (n : ℕ) (ch : ℤ) (bits : List Bool),
    (add_loop size h2 n ch bits).length = bits.length := by
  intro n
  induction n with
  | zero => intro ch bits; rfl
  | succ m ih =>
    intro ch bits
    rw [add_loop, ih]
    exact List.length_set ..

theorem add_loop_mono (size h2 : ℤ) : ∀ (n : ℕ) (ch : ℤ) (bits : List Bool) (i : ℕ),
    bits.getD i false = true → (add_loop size h2 n ch bits).getD i false = true := by
  intro n
  induction n with
  | zero => intro ch bits i h; exact h
  | succ m ih =>
    intro ch bits i h
    rw [add_loop]
    exact ih _ _ i (getD_set_true_mono _ _ _ h)

theorem hash_position_toNat_lt (size : ℤ) (hsz : 1 ≤ size) (ch : ℤ) :
    (hash_position ch size).toNat < size.toNat := by
  have h0 : 0 ≤ ch % size := Int.emod_nonneg ch (by omega)
  have h1 : ch % size < size := Int.emod_lt_of_pos ch (by omega)
  unfold hash_position
  omega

theorem add_loop_sets (size h2 : ℤ) (hsz : 1 ≤ size) :
    ∀ (n : ℕ) (ch : ℤ) (bits : List Bool), bits.length = size.toNat →
    ∀ i : ℕ, i < n →
    (add_loop size h2 n ch bits).getD ((ch + (i : ℤ) * h2) % size).toNat false = true := by
  intro n
  induction n with
  | zero => intro ch bits hlen i hi; omega
  | succ m ih =>
    intro ch bits hlen i hi
    rw [add_loop]
    cases i with
    | zero =>
      have hp : ((ch + ((0 : ℕ) : ℤ) * h2) % size) = hash_position ch size := by
        simp [hash_position]
      rw [hp]
      apply add_loop_mono
      apply getD_set_true_self
      rw [hlen]
      exact hash_position_toNat_lt size hsz ch
    | succ k =>
      rw [← hash_shift]
      exact ih (ch + h2) (bits.set (hash_position ch size).toNat true)
        (by rw [List.length_set]; exact hlen) k (by omega)

theorem add_loop_eq_of_all_set (size h2 : ℤ) :
    ∀ (n : ℕ) (ch : ℤ) (bits : List Bool),
    (∀ i : ℕ, i < n → bits.getD ((ch + (i : ℤ) * h2) % size).toNat false = true) →
    add_loop size h2 n ch bits = bits := by
  intro n
  induction n with
  | zero => intro ch bits _; rfl
  | succ m ih =>
    intro ch bits hall
    have h0 := hall 0 (by omega)
    have hset : bits.set (hash_position ch size).toNat true = bits := by
      apply set_true_of_getD_true
      simpa [hash_position] using h0
    rw [add_loop, hset]
    apply ih
    intro i hi
    rw [hash_shift]
    exact hall (i + 1) (by omega)

/-! ### Lemmas about the `contain` loop -/

theorem contain_loop_iff (size h2 : ℤ) (bits : List Bool) : ∀ (n : ℕ) (ch : ℤ),
    contain_loop size h2 bits n ch = true ↔
      ∀ i : ℕ, i < n → bits.getD ((ch + (i : ℤ) * h2) % size).toNat false = true := by
  intro n
  induction n with
  | zero =>
    intro ch
    simp [contain_loop]
  | succ m ih =>
    intro ch
    rw [contain_loop]
    cases hb : bits.getD (hash_position ch size).toNat false with
    | false =>
      rw [if_neg (by simp)]
      constructor
      · intro h
        exact absurd h (by simp)
      · intro hall
        have h0 := hall 0 (by omega)
        simp only [Nat.cast_zero, zero_mul, add_zero] at h0
        simp only [hash_position] at hb
        rw [hb] at h0
        exact absurd h0 (by simp)
    | true =>
      rw [if_pos rfl, ih]
      constructor
      · intro h i hi
        cases i with
        | zero =>
          simpa [hash_position] using hb
        | succ k =>
          rw [← hash_shift]
          exact h k (by omega)
      · intro hall i hi
        rw [hash_shift]
        exact hall (i + 1) (by omega)

/-! ### Filter-level helper lemmas -/

theorem add_case_sensitive (H : String → ℤ × ℤ) (bf : BloomFilter) (x : String) :
    (bf.add H x).case_sensitive = bf.case_sensitive := rfl

theorem add_filter_size (H : String → ℤ × ℤ) (bf : BloomFilter) (x : String) :
    (bf.add H x).filter_size = bf.filter_size := rfl

theorem add_hash_count (H : String → ℤ × ℤ) (bf : BloomFilter) (x : String) :
    (bf.add H x).hash_count = bf.hash_count := rfl

theorem add_bitarray_length (H : String → ℤ × ℤ) (bf : BloomFilter) (x : String) :
    (bf.add H x).bloom_bitarray.length = bf.bloom_bitarray.length :=
  add_loop_length ..

theorem add_bitarray_mono (H : String → ℤ × ℤ) (bf : BloomFilter) (x : String) (i : ℕ)
    (h : bf.bloom_bitarray.getD i false = true) :
    (bf.add H x).bloom_bitarray.getD i false = true :=
  add_loop_mono _ _ _ _ _ _ h

theorem bulk_add_bitarray_mono (H : String → ℤ × ℤ) :
    ∀ (items : List String) (bf : BloomFilter) (i : ℕ),
    bf.bloom_bitarray.getD i false = true →
    (bf.bulk_add H items).bloom_bitarray.getD i false = true := by
  intro items
  induction items with
  | nil => intro bf i h; exact h
  | cons x xs ih =>
    intro bf i h
    exact ih (bf.add H x) i (add_bitarray_mono H bf x i h)

/-- `contain` characterised by the bits it reads: true exactly when all
`hash_count` double-hashing positions hold a set bit. -/
theorem contain_eq_true_iff (H : String → ℤ × ℤ) (bf : BloomFilter) (item : String) :
    bf.contain H item = true ↔
      ∀ i : ℕ, i < bf.hash_count.toNat →
        bf.bloom_bitarray.getD
          (((get_hash H item bf.case_sensitive).1 +
            (i : ℤ) * (get_hash H item bf.case_sensitive).2) % bf.filter_size).toNat
          false = true :=
  contain_loop_iff ..

/-- After `add`ing an item whose hash pair matches the queried item's,
`contain` answers true (the core of the no-false-negative argument). -/
theorem contain_add_of_hash_eq (H : String → ℤ × ℤ) (bf : BloomFilter) (a b : String)
    (hh : get_hash H a bf.case_sensitive = get_hash H b bf.case_sensitive)
    (hsz : 1 ≤ bf.filter_size)
    (hlen : bf.bloom_bitarray.length = bf.filter_size.toNat) :
    (bf.add H a).contain H b = true := by
  rw [contain_eq_true_iff]
  intro i hi
  rw [add_case_sensitive, ← hh, add_filter_size]
  rw [add_hash_count] at hi
  exact add_loop_sets bf.filter_size (get_hash H a bf.case_sensitive).2 hsz
    bf.hash_count.toNat (get_hash H a bf.case_sensitive).1 bf.bloom_bitarray hlen i hi

/-- A positive `contain` answer survives any further single insertion. -/
theorem contain_mono_add (H : String → ℤ × ℤ) (bf : BloomFilter) (x y : String)
    (h : bf.contain H y = true) : (bf.add H x).contain H y = true := by
  rw [contain_eq_true_iff] at h ⊢
  intro i hi
  rw [add_case_sensitive, add_filter_size]
  rw [add_hash_count] at hi
  exact add_bitarray_mono H bf x _ (h i hi)

/-- A positive `contain` answer survives any further bulk insertion. -/
theorem contain_mono_bulk_add (H : String → ℤ × ℤ) :
    ∀ (items : List String) (bf : BloomFilter) (y : String),
    bf.contain H y = true → (bf.bulk_add H items).contain H y = true := by
  intro items
  induction items with
  | nil => intro bf y h; exact h
  | cons x xs ih =>
    intro bf y h
    exact ih (bf.add H x) y (contain_mono_add H bf x y h)

theorem bulk_add_eq_spec_sequential (H : String → ℤ × ℤ) :
    ∀ (items : List String) (bf : BloomFilter),
    bf.bulk_add H items = spec_sequential_insert H bf items := by
  intro items
  induction items with
  | nil => intro bf; rfl
  | cons x xs ih => intro bf; exact ih (bf.add H x)

/-! ### Claim theorems -/

/-- C1: No false negatives — for every item `x` `add`ed to a filter (any hash
function, any filter state with a positive bit-array size matching the stored
`filter_size`), `contain x` answers `true` immediately after the insertion and
still answers `true` after any further sequence of insertions of arbitrary
items. -/
theorem no_false_negatives (H : String → ℤ × ℤ) (bf : BloomFilter) (x : String)
    (more : List String)
    (hsz : 1 ≤ bf.filter_size)
    (hlen : bf.bloom_bitarray.length = bf.filter_size.toNat) :
    (bf.add H x).contain H x = true ∧
    ((bf.add H x).bulk_add H more).contain H x = true := by
  have h1 := contain_add_of_hash_eq H bf x x rfl hsz hlen
  exact ⟨h1, contain_mono_bulk_add H more (bf.add H x) x h1⟩

theorem no_false_negatives_witness :
    (1 : ℤ) ≤ (⟨2, 1/2, false, 0, 3, 1, [false, false, false]⟩ : BloomFilter).filter_size ∧
    (⟨2, 1/2, false, 0, 3, 1, [false, false, false]⟩ : BloomFilter).bloom_bitarray.length =
      (⟨2, 1/2, false, 0, 3, 1, [false, false, false]⟩ : BloomFilter).filter_size.toNat ∧
    (((⟨2, 1/2, false, 0, 3, 1, [false, false, false]⟩ : BloomFilter).add mmh3_hash64
        "a").contain mmh3_hash64 "a" = true ∧
      ((((⟨2, 1/2, false, 0, 3, 1, [false, false, false]⟩ : BloomFilter).add mmh3_hash64
        "a").bulk_add mmh3_hash64 ["b"]).contain mmh3_hash64 "a" = true)) :=
  ⟨by decide, by decide,
    no_false_negatives mmh3_hash64 ⟨2, 1/2, false, 0, 3, 1, [false, false, false]⟩
      "a" ["b"] (by decide) (by decide)⟩

/-- C5: `contain` answers `true` exactly when all `hash_count` bits at the
double-hashing positions `(h1 + i*h2) % filter_size`, `i ∈ [0, hash_count)`,
are set.  (The embedded `contain_loop` returns `false` at the first unset bit,
mirroring the short-circuiting `return False` of the source, and `contain` is a
pure function of the state — the Python method writes no attribute.) -/
theorem contain_iff_all_positions_set (H : String → ℤ × ℤ) (bf : BloomFilter)
    (item : String) :
    bf.contain H item = true ↔
      ∀ i : ℕ, i < bf.hash_count.toNat →
        bf.bloom_bitarray.getD
          (((get_hash H item bf.case_sensitive).1 +
            (i : ℤ) * (get_hash H item bf.case_sensitive).2) % bf.filter_size).toNat
          false = true :=
  contain_eq_true_iff H bf item

/-- C6: Monotonicity — the bit array created by the constructor is all-zero,
and neither `add` nor `bulk_add` ever clears a set bit (`contain` is embedded
as a pure function and cannot change the state at all). -/
theorem bitarray_monotone_lifecycle (H : String → ℤ × ℤ) (n : ℤ) (bf : BloomFilter)
    (item : String) (items : List String) (i j : ℕ)
    (hbit : bf.bloom_bitarray.getD i false = true) :
    (init_bits n).getD j false = false ∧
    (bf.add H item).bloom_bitarray.getD i false = true ∧
    (bf.bulk_add H items).bloom_bitarray.getD i false = true :=
  ⟨getD_replicate_false n.toNat j,
   add_bitarray_mono H bf item i hbit,
   bulk_add_bitarray_mono H items bf i hbit⟩

theorem bitarray_monotone_lifecycle_witness :
    (⟨2, 1/2, false, 0, 3, 1, [true, false, false]⟩ : BloomFilter).bloom_bitarray.getD
        0 false = true ∧
    ((init_bits 3).getD 1 false = false ∧
      ((⟨2, 1/2, false, 0, 3, 1, [true, false, false]⟩ : BloomFilter).add mmh3_hash64
          "a").bloom_bitarray.getD 0 false = true ∧
      ((⟨2, 1/2, false, 0, 3, 1, [true, false, false]⟩ : BloomFilter).bulk_add mmh3_hash64
          ["b"]).bloom_bitarray.getD 0 false = true) :=
  ⟨by decide,
    bitarray_monotone_lifecycle mmh3_hash64 3
      ⟨2, 1/2, false, 0, 3, 1, [true, false, false]⟩ "a" ["b"] 0 1 (by decide)⟩

/-- C7: Idempotence — `add`ing the same item twice leaves the same bit array
as `add`ing it once, increments `counter` once per call, and is observably
equivalent for every subsequent `contain` query. -/
theorem add_idempotent_on_bits (H : String → ℤ × ℤ) (bf : BloomFilter) (x : String)
    (hsz : 1 ≤ bf.filter_size)
    (hlen : bf.bloom_bitarray.length = bf.filter_size.toNat) :
    ((bf.add H x).add H x).bloom_bitarray = (bf.add H x).bloom_bitarray ∧
    ((bf.add H x).add H x).counter = bf.counter + 2 ∧
    ∀ y : String, ((bf.add H x).add H x).contain H y = (bf.add H x).contain H y := by
  have hall : ∀ i : ℕ, i < bf.hash_count.toNat →
      (bf.add H x).bloom_bitarray.getD
        (((get_hash H x bf.case_sensitive).1 +
          (i : ℤ) * (get_hash H x bf.case_sensitive).2) % bf.filter_size).toNat
        false = true := by
    intro i hi
    exact add_loop_sets bf.filter_size (get_hash H x bf.case_sensitive).2 hsz
      bf.hash_count.toNat (get_hash H x bf.case_sensitive).1 bf.bloom_bitarray hlen i hi
  have hbits : ((bf.add H x).add H x).bloom_bitarray = (bf.add H x).bloom_bitarray := by
    show add_loop bf.filter_size (get_hash H x bf.case_sensitive).2 bf.hash_count.toNat
        (get_hash H x bf.case_sensitive).1 (bf.add H x).bloom_bitarray
      = (bf.add H x).bloom_bitarray
    exact add_loop_eq_of_all_set bf.filter_size (get_hash H x bf.case_sensitive).2
      bf.hash_count.toNat (get_hash H x bf.case_sensitive).1
      (bf.add H x).bloom_bitarray hall
  refine ⟨hbits, by show bf.counter + 1 + 1 = bf.counter + 2; omega, ?_⟩
  intro y
  show contain_loop (bf.add H x).filter_size
      (get_hash H y (bf.add H x).case_sensitive).2
      (((bf.add H x).add H x).bloom_bitarray)
      (bf.add H x).hash_count.toNat
      (get_hash H y (bf.add H x).case_sensitive).1
    = (bf.add H x).contain H y
  rw [hbits]
  rfl

theorem add_idempotent_on_bits_witness :
    (1 : ℤ) ≤ (⟨2, 1/2, false, 0, 3, 1, [false, false, false]⟩ : BloomFilter).filter_size ∧
    (⟨2, 1/2, false, 0, 3, 1, [false, false, false]⟩ : BloomFilter).bloom_bitarray.length =
      (⟨2, 1/2, false, 0, 3, 1, [false, false, false]⟩ : BloomFilter).filter_size.toNat ∧
    ((((⟨2, 1/2, false, 0, 3, 1, [false, false, false]⟩ : BloomFilter).add mmh3_hash64
          "a").add mmh3_hash64 "a").bloom_bitarray =
        ((⟨2, 1/2, false, 0, 3, 1, [false, false, false]⟩ : BloomFilter).add mmh3_hash64
          "a").bloom_bitarray ∧
      (((⟨2, 1/2, false, 0, 3, 1, [false, false, false]⟩ : BloomFilter).add mmh3_hash64
          "a").add mmh3_hash64 "a").counter =
        (⟨2, 1/2, false, 0, 3, 1, [false, false, false]⟩ : BloomFilter).counter + 2 ∧
      ∀ y : String,
        (((⟨2, 1/2, false, 0, 3, 1, [false, false, false]⟩ : BloomFilter).add mmh3_hash64
            "a").add mmh3_hash64 "a").contain mmh3_hash64 y =
          ((⟨2, 1/2, false, 0, 3, 1, [false, false, false]⟩ : BloomFilter).add mmh3_hash64
            "a").contain mmh3_hash64 y) :=
  ⟨by decide, by decide,
    add_idempotent_on_bits mmh3_hash64 ⟨2, 1/2, false, 0, 3, 1, [false, false, false]⟩
      "a" (by decide) (by decide)⟩

/-- C8: `bulk_add` is exactly the sequential per-item `add` (the spec-side
recursion `spec_sequential_insert`), it splits over concatenation of batches,
and bits set by an earlier part of a batch survive the rest of the batch
(no rollback). -/
theorem bulk_add_equals_sequential_adds (H : String → ℤ × ℤ) (bf : BloomFilter)
    (items pre post : List String) (i : ℕ)
    (hbit : (bf.bulk_add H pre).bloom_bitarray.getD i false = true) :
    bf.bulk_add H items = spec_sequential_insert H bf items ∧
    bf.bulk_add H (pre ++ post) = (bf.bulk_add H pre).bulk_add H post ∧
    ((bf.bulk_add H pre).bulk_add H post).bloom_bitarray.getD i false = true := by
  refine ⟨bulk_add_eq_spec_sequential H items bf, ?_,
    bulk_add_bitarray_mono H post (bf.bulk_add H pre) i hbit⟩
  unfold BloomFilter.bulk_add
  exact List.foldl_append ..

theorem bulk_add_equals_sequential_adds_witness :
    ((⟨2, 1/2, false, 0, 3, 1, [false, false, false]⟩ : BloomFilter).bulk_add mmh3_hash64
        ["a"]).bloom_bitarray.getD 0 false = true ∧
    ((⟨2, 1/2, false, 0, 3, 1, [false, false, false]⟩ : BloomFilter).bulk_add mmh3_hash64
        ["a", "b"] =
      spec_sequential_insert mmh3_hash64
        ⟨2, 1/2, false, 0, 3, 1, [false, false, false]⟩ ["a", "b"] ∧
      (⟨2, 1/2, false, 0, 3, 1, [false, false, false]⟩ : BloomFilter).bulk_add mmh3_hash64
          (["a"] ++ ["b"]) =
        (((⟨2, 1/2, false, 0, 3, 1, [false, false, false]⟩ : BloomFilter).bulk_add
            mmh3_hash64 ["a"]).bulk_add mmh3_hash64 ["b"]) ∧
      ((((⟨2, 1/2, false, 0, 3, 1, [false, false, false]⟩ : BloomFilter).bulk_add
          mmh3_hash64 ["a"]).bulk_add mmh3_hash64 ["b"]).bloom_bitarray.getD 0 false
        = true)) :=
  ⟨by decide,
    bulk_add_equals_sequential_adds mmh3_hash64
      ⟨2, 1/2, false, 0, 3, 1, [false, false, false]⟩ ["a", "b"] ["a"] ["b"] 0 (by decide)⟩

/-- C9: Index safety of double hashing — for a filter of positive size whose
bit array has the declared length, every position `(h1 + i*h2) % filter_size`
computed by the `add`/`contain` loops lies in `[0, filter_size)` for all
64-bit signed hash values, including negative ones, so every bit-array access
is in bounds. -/
theorem double_hash_positions_in_bounds (bf : BloomFilter) (h1 h2 : ℤ) (i : ℕ)
    (hsz : 1 ≤ bf.filter_size)
    (hlen : bf.bloom_bitarray.length = bf.filter_size.toNat)
    (hlo1 : -(2 ^ 63) ≤ h1) (hhi1 : h1 < 2 ^ 63)
    (hlo2 : -(2 ^ 63) ≤ h2) (hhi2 : h2 < 2 ^ 63) :
    0 ≤ hash_position (h1 + (i : ℤ) * h2) bf.filter_size ∧
    hash_position (h1 + (i : ℤ) * h2) bf.filter_size < bf.filter_size ∧
    (hash_position (h1 + (i : ℤ) * h2) bf.filter_size).toNat <
      bf.bloom_bitarray.length := by
  have h0 : 0 ≤ (h1 + (i : ℤ) * h2) % bf.filter_size :=
    Int.emod_nonneg _ (by omega)
  have hlt : (h1 + (i : ℤ) * h2) % bf.filter_size < bf.filter_size :=
    Int.emod_lt_of_pos _ (by omega)
  unfold hash_position
  refine ⟨h0, hlt, by omega⟩

theorem double_hash_positions_in_bounds_witness :
    ((1 : ℤ) ≤ (⟨2, 1/2, false, 0, 3, 1, [false, false, false]⟩ : BloomFilter).filter_size ∧
      (⟨2, 1/2, false, 0, 3, 1, [false, false, false]⟩ : BloomFilter).bloom_bitarray.length =
        (⟨2, 1/2, false, 0, 3, 1, [false, false, false]⟩ : BloomFilter).filter_size.toNat ∧
      -(2 ^ 63) ≤ (-5 : ℤ) ∧ (-5 : ℤ) < 2 ^ 63 ∧
      -(2 ^ 63) ≤ (7 : ℤ) ∧ (7 : ℤ) < 2 ^ 63) ∧
    (0 ≤ hash_position ((-5) + ((1 : ℕ) : ℤ) * 7)
        (⟨2, 1/2, false, 0, 3, 1, [false, false, false]⟩ : BloomFilter).filter_size ∧
      hash_position ((-5) + ((1 : ℕ) : ℤ) * 7)
          (⟨2, 1/2, false, 0, 3, 1, [false, false, false]⟩ : BloomFilter).filter_size <
        (⟨2, 1/2, false, 0, 3, 1, [false, false, false]⟩ : BloomFilter).filter_size ∧
      (hash_position ((-5) + ((1 : ℕ) : ℤ) * 7)
          (⟨2, 1/2, false, 0, 3, 1, [false, false, false]⟩ : BloomFilter).filter_size).toNat <
        (⟨2, 1/2, false, 0, 3, 1, [false, false, false]⟩ : BloomFilter).bloom_bitarray.length) :=
  ⟨⟨by decide, by decide, by decide, by decide, by decide, by decide⟩,
    double_hash_positions_in_bounds ⟨2, 1/2, false, 0, 3, 1, [false, false, false]⟩
      (-5) 7 1 (by decide) (by decide) (by decide) (by decide) (by decide) (by decide)⟩

/-- C10: Hash-input asymmetry — `add` passes `str(item)` to the hash
derivation while `contain` passes `item` uncoerced; for a string item the two
coincide (and the derived hash pairs are identical), while for a non-string
item the value handed to the hash primitive differs between the two
operations. -/
theorem hash_input_asymmetry (s : String) (item : PyObj)
    (hns : ∀ t : String, item ≠ PyObj.PyStr t) :
    add_hash_input (PyObj.PyStr s) = contain_hash_input (PyObj.PyStr s) ∧
    (∀ (H : String → ℤ × ℤ) (cs : Bool),
      get_hash H (py_str (PyObj.PyStr s)) cs = get_hash H s cs) ∧
    add_hash_input item ≠ contain_hash_input item := by
  refine ⟨rfl, fun H cs => rfl, ?_⟩
  intro h
  cases item with
  | PyStr t => exact hns t rfl
  | PyInt n => exact PyObj.noConfusion h

theorem hash_input_asymmetry_witness :
    (∀ t : String, PyObj.PyInt 5 ≠ PyObj.PyStr t) ∧
    (add_hash_input (PyObj.PyStr "x") = contain_hash_input (PyObj.PyStr "x") ∧
      (∀ (H : String → ℤ × ℤ) (cs : Bool),
        get_hash H (py_str (PyObj.PyStr "x")) cs = get_hash H "x" cs) ∧
      add_hash_input (PyObj.PyInt 5) ≠ contain_hash_input (PyObj.PyInt 5)) :=
  ⟨fun t h => PyObj.noConfusion h,
    hash_input_asymmetry "x" (PyObj.PyInt 5) (fun t h => PyObj.noConfusion h)⟩

/-! ### Capacity-planning arithmetic -/

/-- The denominator `log(1 / pow(2, log(2)))` of `get_filter_size` equals
`-(ln 2)^2`. -/
theorem log_denominator_eq :
    Real.log (1 / (2 : ℝ) ^ Real.log 2) = -(Real.log 2 * Real.log 2) := by
  rw [one_div, Real.log_inv, Real.log_rpow (by norm_num : (0 : ℝ) < 2)]

/-- C4 (evaluation at the failing input): constructing `BloomFilter(10, 1.0)`
is not rejected — `get_filter_size(10, 1.0)` returns `0` (since `log 1 = 0`),
`get_hash_count(10, 0)` returns `0`, and the resulting degenerate filter
(empty bit array, zero hash rounds) answers `True` to every membership query
instead of construction failing with an `InvalidParameter` error. -/
theorem probability_one_construction_not_rejected :
    get_filter_size 10 1 = 0 ∧
    get_hash_count 10 0 = 0 ∧
    init_bits 0 = [] ∧
    (⟨10, 1, false, 0, 0, 0, []⟩ : BloomFilter).contain mmh3_hash64 "anything" = true := by
  refine ⟨?_, ?_, rfl, by decide⟩
  · unfold get_filter_size
    rw [Real.log_one]
    norm_num
  · unfold get_hash_count
    norm_num

/-- C3 (evaluation at the failing input): for `items = 40`,
`probability = 0.99` the code returns `get_filter_size 40 0.99 = 1` and then
`get_hash_count 40 1 = round(ln 2 / 40) = 0` — the hash-round count is NOT
clamped to a minimum of 1. -/
theorem hash_count_not_clamped_at_forty :
    get_filter_size 40 (99 / 100) = 1 ∧
    get_hash_count 40 (get_filter_size 40 (99 / 100)) = 0 := by
  have hL9 : (0.6931471803 : ℝ) < Real.log 2 := Real.log_two_gt_d9
  have hL9' : Real.log 2 < 0.6931471808 := Real.log_two_lt_d9
  have hfs : get_filter_size 40 (99 / 100) = 1 := by
    unfold get_filter_size
    rw [log_denominator_eq]
    have hneg : Real.log ((99 : ℝ) / 100) < 0 :=
      Real.log_neg (by norm_num) (by norm_num)
    have hub : -Real.log ((99 : ℝ) / 100) ≤ 1 / 99 := by
      have h := Real.log_le_sub_one_of_pos
        (show (0 : ℝ) < ((99 : ℝ) / 100)⁻¹ by norm_num)
      rw [Real.log_inv] at h
      calc -Real.log ((99 : ℝ) / 100) ≤ ((99 : ℝ) / 100)⁻¹ - 1 := h
        _ = 1 / 99 := by norm_num
    rw [Int.ceil_eq_iff]
    have hd : (0 : ℝ) < Real.log 2 * Real.log 2 := by nlinarith
    constructor
    · push_cast
      have hpos : 0 < ((40 : ℝ) * Real.log ((99 : ℝ) / 100)) /
          -(Real.log 2 * Real.log 2) :=
        div_pos_of_neg_of_neg (by linarith) (by linarith)
      linarith
    · push_cast
      rw [show ((40 : ℝ) * Real.log ((99 : ℝ) / 100)) / -(Real.log 2 * Real.log 2)
            = (-((40 : ℝ) * Real.log ((99 : ℝ) / 100))) / (Real.log 2 * Real.log 2) from
          by ring]
      rw [div_le_one hd]
      nlinarith [hub, hL9, sq_nonneg (Real.log 2 - 0.6931471803)]
  refine ⟨hfs, ?_⟩
  rw [hfs]
  unfold get_hash_count
  rw [round_eq, Int.floor_eq_iff]
  push_cast
  constructor
  · nlinarith [hL9]
  · nlinarith [hL9']

/-- C2 counterexample: with the case flag FALSE (the polarity the claim calls
"case-sensitivity disabled"), inserting `"Foo"` does NOT make
`contain "foo"` true.  The filter state used is exactly the one
`BloomFilter(2, 0.5, case=False)` constructs: `get_filter_size 2 (1/2) = 3`,
`get_hash_count 2 3 = 1`, all-zero bit array of length 3.  Under the modelled
hash, `add "Foo"` sets bit 0 while `contain "foo"` inspects bit 2. -/
theorem case_flag_false_not_folding_cex :
    get_filter_size 2 (1 / 2) = 3 ∧
    get_hash_count 2 3 = 1 ∧
    ((⟨2, 1/2, false, 0, 3, 1, [false, false, false]⟩ : BloomFilter).add mmh3_hash64
        "Foo").contain mmh3_hash64 "foo" = false := by
  have hL9 : (0.6931471803 : ℝ) < Real.log 2 := Real.log_two_gt_d9
  have hL9' : Real.log 2 < 0.6931471808 := Real.log_two_lt_d9
  have hL0 : (0 : ℝ) < Real.log 2 := by linarith
  refine ⟨?_, ?_, by decide⟩
  · unfold get_filter_size
    rw [log_denominator_eq]
    rw [show Real.log ((1 : ℝ) / 2) = -Real.log 2 from by rw [one_div, Real.log_inv]]
    rw [show ((2 : ℤ) : ℝ) * -Real.log 2 / -(Real.log 2 * Real.log 2)
          = 2 / Real.log 2 from by
        rw [div_eq_div_iff (ne_of_lt (by nlinarith)) (ne_of_gt hL0)]
        push_cast
        ring]
    rw [Int.ceil_eq_iff]
    push_cast
    constructor
    · rw [show (3 : ℝ) - 1 = 2 from by norm_num, lt_div_iff hL0]
      nlinarith [hL9']
    · rw [div_le_iff hL0]
      nlinarith [hL9]
  · unfold get_hash_count
    rw [round_eq, Int.floor_eq_iff]
    push_cast
    constructor
    · nlinarith [hL9]
    · nlinarith [hL9']

/-- C2 (amended): the source's flag polarity is inverted — case folding
happens when `case_sensitive` is TRUE (`get_hash` lower-cases the item), so
under a TRUE flag inserting `"Foo"` makes `contain "foo"` true and vice
versa; under a FALSE flag items are hashed exactly as given. -/
theorem case_folding_under_true_flag (H : String → ℤ × ℤ) (bf : BloomFilter)
    (hcase : bf.case_sensitive = true)
    (hsz : 1 ≤ bf.filter_size)
    (hlen : bf.bloom_bitarray.length = bf.filter_size.toNat) :
    (bf.add H "Foo").contain H "foo" = true ∧
    (bf.add H "foo").contain H "Foo" = true ∧
    (∀ (bf' : BloomFilter) (item : String), bf'.case_sensitive = false →
      get_hash H item bf'.case_sensitive = H item) := by
  have hh : get_hash H "Foo" bf.case_sensitive = get_hash H "foo" bf.case_sensitive := by
    rw [hcase]
    unfold get_hash
    rw [if_pos rfl, if_pos rfl]
    rw [show py_lower "Foo" = "foo" from by decide]
    rw [show py_lower "foo" = "foo" from by decide]
  refine ⟨contain_add_of_hash_eq H bf "Foo" "foo" hh hsz hlen,
    contain_add_of_hash_eq H bf "foo" "Foo" hh.symm hsz hlen, ?_⟩
  intro bf' item hc
  rw [hc]
  unfold get_hash
  rw [if_neg (by simp)]

theorem case_folding_under_true_flag_witness :
    ((⟨2, 1/2, true, 0, 3, 1, [false, false, false]⟩ : BloomFilter).case_sensitive = true ∧
      (1 : ℤ) ≤ (⟨2, 1/2, true, 0, 3, 1, [false, false, false]⟩ : BloomFilter).filter_size ∧
      (⟨2, 1/2, true, 0, 3, 1, [false, false, false]⟩ : BloomFilter).bloom_bitarray.length =
        (⟨2, 1/2, true, 0, 3, 1, [false, false, false]⟩ : BloomFilter).filter_size.toNat) ∧
    (((⟨2, 1/2, true, 0, 3, 1, [false, false, false]⟩ : BloomFilter).add mmh3_hash64
        "Foo").contain mmh3_hash64 "foo" = true ∧
      ((⟨2, 1/2, true, 0, 3, 1, [false, false, false]⟩ : BloomFilter).add mmh3_hash64
        "foo").contain mmh3_hash64 "Foo" = true ∧
      (∀ (bf' : BloomFilter) (item : String), bf'.case_sensitive = false →
        get_hash mmh3_hash64 item bf'.case_sensitive = mmh3_hash64 item)) :=
  ⟨⟨by decide, by decide, by decide⟩,
    case_folding_under_true_flag mmh3_hash64
      ⟨2, 1/2, true, 0, 3, 1, [false, false, false]⟩ (by decide) (by decide) (by decide)⟩
